import Mathlib

/-!
Shallow embedding of the Letter Boxed solver (src/src/main.rs) and proofs of
the specification claims.

Modelling conventions:
* Rust `String` values are modelled as `List Char`; `word.len()` becomes
  `List.length` (the word lists in play are plain lowercase ASCII, where byte
  length and character count coincide).
* `HashSet<char>` values are modelled as `Finset Char` (the program only uses
  insertion, cardinality, difference and membership, all order-insensitive).
* `HashMap<char, Vec<String>>` is modelled as an association list
  `List (Char × List (List Char))`; the program only ever calls `get`, so the
  entry order is unobservable.
* `BinaryHeap<State>` is modelled as a `List State` in push order.  `State`'s
  `Ord` instance inverts the comparison on `cost + heuristic`, so `pop`
  returns some state of minimal `cost + heuristic`; `popMin` determinises the
  heap's unspecified tie-breaking by taking the first state attaining the
  minimal key.
* `panic!` / `unwrap` failure is modelled with `Option` (`none` = abort).
-/

/-- One element of the search frontier, mirroring `struct State` in main.rs:
the chain of words chosen so far, the last word, its last character, the cost
(number of words) and the cached heuristic value. -/
structure State where
  chain : List (List Char)
  last_word : List Char
  last_char : Char
  cost : Nat
  heuristic : Nat
deriving DecidableEq

/-- Priority key of a state: `cost + heuristic`.  The Rust `Ord` instance
compares `other.cost + other.heuristic` with `self.cost + self.heuristic`,
turning the max-heap `BinaryHeap` into a min-heap on this key. -/
def State.key (s : State) : Nat := s.cost + s.heuristic

/-- Stable insertion used by `sortBy`: `lt y x = true` means `y` must stay
strictly before `x`, so `x` is placed in front of the first element that is
not strictly before it (ties keep the earlier element first). -/
def insertBy (lt : α → α → Bool) (x : α) : List α → List α
  | [] => [x]
  | y :: ys => if lt y x then y :: insertBy lt x ys else x :: y :: ys

/-- Stable insertion sort; models Rust's stable `sort` / `sort_by`
(any two stable sorts agree, so the choice of algorithm is immaterial). -/
def sortBy (lt : α → α → Bool) : List α → List α
  | [] => []
  | x :: xs => insertBy lt x (sortBy lt xs)

/-- Comparator of `dictionary.sort_by(|a, b| b.len().cmp(&a.len()))`:
`wordLt p q` holds when `p` must come strictly before `q`, i.e. when `p`
is strictly longer. -/
def wordLt (p q : List Char) : Bool := decide (q.length < p.length)

/-- The dictionary reordering of main.rs line 112: stable sort by word
length, longest first. -/
def sortByLenDesc (l : List (List Char)) : List (List Char) := sortBy wordLt l

/-- Ascending character comparator for `chars.sort()` inside the group loop. -/
def charLt (p q : Char) : Bool := decide (p < q)

/-- The recursive word validator `is_letter_pattern_in_letter_box`:
reject when the first two characters share a letter group, answer `true`
when only one character remains, otherwise recurse on the tail.  A word of
fewer than 2 characters indexes out of bounds in Rust (a panic), modelled
as `none`. -/
def is_letter_pattern_in_letter_box (letter_groups : List (List Char)) :
    List Char → Option Bool
  | c0 :: c1 :: rest =>
    if letter_groups.any (fun g => g.contains c0 && g.contains c1) then
      some false
    else
      match rest with
      | [] => some true
      | _ :: _ => is_letter_pattern_in_letter_box letter_groups (c1 :: rest)
  | _ => none

/-- Group parsing from the loop at the top of `LetterBoxedSolver::new`:
each group must have exactly 3 characters (otherwise the program panics,
modelled as `none`); each group's characters are sorted in place. -/
def parseGroups : List (List Char) → Option (List (List Char))
  | [] => some []
  | g :: rest =>
    if g.length = 3 then (parseGroups rest).map (fun r => sortBy charLt g :: r)
    else none

/-- The union of the letters of all groups (`available_chars`). -/
def availableOf (letter_groups : List (List Char)) : Finset Char :=
  (letter_groups.flatMap id).toFinset

/-- The per-line acceptance test of the dictionary-building loop, with the
checks in source order: length bounds, duplicate-letter rejection when the
box has 12 distinct letters, membership of every letter in `available_chars`,
and the word validator. -/
def acceptWord (no_duplicate_letters : Bool) (available_chars : Finset Char)
    (letter_groups : List (List Char)) (word : List Char) : Bool :=
  if word.length > 12 ∨ word.length < 3 then false
  else if no_duplicate_letters = true ∧ word.toFinset.card ≠ word.length then false
  else if (word.toFinset \ available_chars).card > 0 then false
  else decide (is_letter_pattern_in_letter_box letter_groups word = some true)

/-- The words accepted by the reading loop, in encounter order
(the order in which `dictionary.push(word)` runs). -/
def acceptedWords (letter_groups : List (List Char))
    (lines : List (List Char)) : List (List Char) :=
  lines.filter
    (acceptWord (decide ((availableOf letter_groups).card = 12))
      (availableOf letter_groups) letter_groups)

/-- Insertion into the start-letter map (main.rs lines 94–99): append to the
existing bucket if the key is present, otherwise create a singleton bucket. -/
def addToBucket : List (Char × List (List Char)) → Char → List Char →
    List (Char × List (List Char))
  | [], c, w => [(c, [w])]
  | (k, ws) :: rest, c, w =>
    if k = c then (k, ws ++ [w]) :: rest else (k, ws) :: addToBucket rest c w

/-- Lookup in the start-letter map, modelling `HashMap::get`. -/
def lookupBucket : List (Char × List (List Char)) → Char → Option (List (List Char))
  | [], _ => none
  | (k, ws) :: rest, c => if k = c then some ws else lookupBucket rest c

/-- The `start_letter_dictionary` as built inside the reading loop: each
accepted word is appended, in encounter order, to the bucket of its first
character (`word.chars().next().unwrap()`; accepted words are nonempty, so
the `'?'` default of `headD` is never used). -/
def buildBuckets (words : List (List Char)) : List (Char × List (List Char)) :=
  words.foldl (fun m w => addToBucket m (w.headD '?') w) []

/-- The solver record: `available_chars`, the sorted `dictionary`, and the
`start_letter_dictionary` (the unused `end_letter_dictionary` is dropped,
as in the Rust struct itself). -/
structure LetterBoxedSolver where
  available_chars : Finset Char
  dictionary : List (List Char)
  start_letter_dictionary : List (Char × List (List Char))
deriving DecidableEq

/-- The constructor `LetterBoxedSolver::new`: parse the groups (panic if a
group is not 3 characters long), filter the word lines, sort the dictionary
by descending length, and keep the start-letter buckets that were built
during the reading loop (before the sort). -/
def LetterBoxedSolver.new (string_groups : List (List Char))
    (lines : List (List Char)) : Option LetterBoxedSolver :=
  (parseGroups string_groups).map (fun letter_groups =>
    { available_chars := availableOf letter_groups
      dictionary := sortByLenDesc (acceptedWords letter_groups lines)
      start_letter_dictionary := buildBuckets (acceptedWords letter_groups lines) })

/-- The heuristic of a chain: the number of characters of `chars` that do not
occur in any word of `chain` (main.rs lines 134–151; the sorted vectors `a`
and `b` computed there feed only commented-out debug output). -/
def heuristic (chain : List (List Char)) (chars : Finset Char) : Nat :=
  (chars \ (chain.flatMap id).toFinset).card

/-- Deterministic model of `BinaryHeap::pop` on the inverted-`Ord` heap:
remove and return a state of minimal `cost + heuristic` (the first such
state, determinising the heap's unspecified tie order), together with the
remaining states. -/
def popMin : List State → Option (State × List State)
  | [] => none
  | s :: rest =>
    match popMin rest with
    | none => some (s, [])
    | some (m, rest') =>
      if s.key ≤ m.key then some (s, rest) else some (m, s :: rest')

/-- The expansion step of the inner search loop (main.rs lines 219–246):
look up the bucket of the popped state's `last_char`; for every word there
that is neither already in the chain nor ignored, build the extended state
with the word appended, `cost + 1`, the recomputed heuristic, and the new
word's last character. -/
def expandState (graph : List (Char × List (List Char)))
    (ignore_words : List (List Char)) (available_chars : Finset Char)
    (state : State) : List State :=
  match lookupBucket graph state.last_char with
  | none => []
  | some next_words =>
    (next_words.filter
        (fun w => !(state.chain.contains w) && !(ignore_words.contains w))).map
      (fun next_word =>
        { chain := state.chain ++ [next_word]
          last_word := next_word
          last_char := next_word.getLastD '?'
          cost := state.cost + 1
          heuristic := heuristic (state.chain ++ [next_word]) available_chars })

/-- The seeding loop of `a_star` (main.rs lines 165–178): one length-1 chain
per dictionary word that is not in the ignore list. -/
def seedStates (solver : LetterBoxedSolver) (ignore_words : List (List Char)) :
    List State :=
  (solver.dictionary.filter (fun w => !(ignore_words.contains w))).map
    (fun word =>
      { chain := [word]
        last_word := word
        last_char := word.getLastD '?'
        cost := 1
        heuristic := heuristic [word] solver.available_chars })

/-- The constant `return_after` of `a_star`. -/
def return_after : Nat := 4

/-- Weight of a state for the inner-loop termination measure at depth
ceiling `L` with per-bucket fan-out bound `D`.  Popping a state of chain
length `n ≤ L` pushes at most `D` states of chain length `n + 1`, and
`D * (D+1)^(L-n) < (D+1)^(L+1-n)`, so the total weight strictly drops. -/
def stateWeight (L D : Nat) (s : State) : Nat := (D + 1) ^ (L + 1 - s.chain.length)

/-- Total weight of a frontier. -/
def queueMeasure (L D : Nat) (q : List State) : Nat :=
  (q.map (stateWeight L D)).sum

/-- Length of the longest bucket of the start-letter map; bounds how many
states one expansion can push. -/
def bucketBound (graph : List (Char × List (List Char))) : Nat :=
  (graph.map (fun p => p.2.length)).foldr Nat.max 0

/-- Fuel-indexed version of the inner `while let Some(state) =
priority_queue.pop()` loop of `a_star` at depth ceiling `L` (main.rs lines
192–247).  Each popped state is first pushed (as a field-by-field clone)
onto `visited`; a state whose chain is longer than `L` is skipped; a state
with heuristic 0 is recorded as a solution and the loop returns the
solutions immediately (`Sum.inl`) when `L > 3` or when `return_after`
solutions have accumulated; otherwise the state is expanded.  `Sum.inr`
returns the solutions and visited states when the frontier empties.  The
fuel-exhaustion branch is unreachable for the fuel chosen in `drainLoop`
below (`drainLoopF_stable`). -/
def drainLoopF (graph : List (Char × List (List Char)))
    (ignore_words : List (List Char)) (available_chars : Finset Char)
    (L : Nat) :
    Nat → List State → List State → List (List (List Char)) →
      Sum (List (List (List Char))) (List (List (List Char)) × List State)
  | 0, _, visited, solutions => Sum.inr (solutions, visited)
  | fuel + 1, queue, visited, solutions =>
    match popMin queue with
    | none => Sum.inr (solutions, visited)
    | some (state, rest) =>
      if state.chain.length > L then
        drainLoopF graph ignore_words available_chars L fuel rest
          (visited ++ [state]) solutions
      else if state.heuristic = 0 then
        (if L > 3 ∨ return_after ≤ (solutions ++ [state.chain]).length then
          Sum.inl (solutions ++ [state.chain])
        else
          drainLoopF graph ignore_words available_chars L fuel
            (rest ++ expandState graph ignore_words available_chars state)
            (visited ++ [state]) (solutions ++ [state.chain]))
      else
        drainLoopF graph ignore_words available_chars L fuel
          (rest ++ expandState graph ignore_words available_chars state)
          (visited ++ [state]) solutions

/-- One full drain of the frontier at depth ceiling `L`, starting from the
empty solutions list and empty visited heap of each outer iteration.  The
fuel `queueMeasure L (bucketBound graph) queue + 1` is strictly larger than
the termination measure, so the fuel-exhaustion branch of `drainLoopF` is
never taken (`drainLoopF_stable`). -/
def drainLoop (graph : List (Char × List (List Char)))
    (ignore_words : List (List Char)) (available_chars : Finset Char)
    (L : Nat) (queue : List State) :
    Sum (List (List (List Char))) (List (List (List Char)) × List State) :=
  drainLoopF graph ignore_words available_chars L
    (queueMeasure L (bucketBound graph) queue + 1) queue [] []

/-- Fuel-indexed model of the `while let Some(state) = visited.pop()` loop
that moves every visited state back onto the frontier between depth levels,
popping in ascending key order.  The fuel `visited.length` is exactly
enough, since each `popMin` removes one state. -/
def drainHeapF : Nat → List State → List State → List State
  | 0, _, queue => queue
  | fuel + 1, visited, queue =>
    match popMin visited with
    | none => queue
    | some (s, rest) => drainHeapF fuel rest (queue ++ [s])

/-- Transfer of the visited heap back onto the (empty) frontier. -/
def drainHeap (visited queue : List State) : List State :=
  drainHeapF visited.length visited queue

/-- The outer `for l in 1..=6` loop of `a_star`: at each depth ceiling the
solutions list is reset and the frontier is drained; an early return inside
the drain returns those solutions; a completed drain with solutions breaks
the loop; otherwise the visited states are restored to the frontier and the
next ceiling is tried.  After the last ceiling the (then empty) solutions
list is returned. -/
def searchLevels (graph : List (Char × List (List Char)))
    (ignore_words : List (List Char)) (available_chars : Finset Char) :
    List Nat → List State → List (List (List Char)) →
      Option (List (List (List Char)))
  | [], _, solutions => some solutions
  | l :: ls, queue, _ =>
    match drainLoop graph ignore_words available_chars l queue with
    | Sum.inl solutions => some solutions
    | Sum.inr (solutions, visited) =>
      if solutions.length > 0 then some solutions
      else searchLevels graph ignore_words available_chars ls
        (drainHeap visited []) solutions

/-- The search `a_star` (main.rs lines 154–266): seed one state per
non-ignored dictionary word and run the depth ceilings 1..6.  Every exit
path of the Rust function returns `Some`. -/
def a_star (solver : LetterBoxedSolver) (ignore_words : List (List Char)) :
    Option (List (List (List Char))) :=
  searchLevels solver.start_letter_dictionary ignore_words
    solver.available_chars [1, 2, 3, 4, 5, 6] (seedStates solver ignore_words) []

/-- The wrapper `run_solver`: `Ok(self.a_star(ignore_words).unwrap())`.
The outer `Option` models the `unwrap` panic (`none` would mean `a_star`
returned `None`, which never happens). -/
def run_solver (solver : LetterBoxedSolver) (ignore_words : List (List Char)) :
    Option (Except String (List (List (List Char)))) :=
  (a_star solver ignore_words).map Except.ok

/-- The adjacency condition of the specification: two consecutive letters may
not belong to the same letter group. -/
def adjOK (letter_groups : List (List Char)) (a b : Char) : Prop :=
  ¬ ∃ g ∈ letter_groups, a ∈ g ∧ b ∈ g

/-- The acceptance condition of the Dictionary Builder, written from the
specification's step list (§4.2): length between 3 and 12; no repeated
letter when the box has 12 distinct letters; every letter allowed; legal
adjacency. -/
def specAcceptWord (no_duplicate_letters : Bool) (allowed : Finset Char)
    (letter_groups : List (List Char)) (word : List Char) : Prop :=
  (3 ≤ word.length ∧ word.length ≤ 12) ∧
  (no_duplicate_letters = true → word.Nodup) ∧
  (∀ c ∈ word, c ∈ allowed) ∧
  word.Chain' (adjOK letter_groups)

/-- Consistency of a `State`'s derived fields with its chain, as claimed for
every state ever pushed: the cost is the chain length, `last_word` is the
chain's final word, and `last_char` is that word's final character. -/
def StateConsistent (s : State) : Prop :=
  s.cost = s.chain.length ∧ s.last_word = s.chain.getLastD [] ∧
    s.last_char = s.last_word.getLastD '?'

/-- Full invariant of all search states for a given dictionary and allowed
letters: the chain is a nonempty sequence of dictionary words, consecutive
words are linked end-to-start, the derived fields are consistent, and the
cached heuristic is the heuristic of the chain. -/
structure StateInv (dict : List (List Char)) (avail : Finset Char)
    (s : State) : Prop where
  chain_ne : s.chain ≠ []
  mem_dict : ∀ w ∈ s.chain, w ∈ dict
  linked : s.chain.Chain' (fun a b => a.getLast? = b.head?)
  last_word_eq : s.last_word = s.chain.getLastD []
  last_char_eq : s.last_char = s.last_word.getLastD '?'
  cost_eq : s.cost = s.chain.length
  heuristic_eq : s.heuristic = heuristic s.chain avail

/-- Concrete letter box used in the worked examples: four sides
`abc / def / ghi / jkl` (the box of specification scenario 1). -/
def gsEx : List (List Char) :=
  [['a', 'b', 'c'], ['d', 'e', 'f'], ['g', 'h', 'i'], ['j', 'k', 'l']]

/-- Word source with two accepted words sharing a start letter but of
different lengths, exposing the bucket order. -/
def linesOrderEx : List (List Char) := [['a', 'd', 'g'], ['a', 'd', 'g', 'j']]

/-- First example word: `adgjbehk` (legal, 8 distinct letters). -/
def w1Ex : List Char := ['a', 'd', 'g', 'j', 'b', 'e', 'h', 'k']

/-- Second example word: `kcfil` (legal, covers the remaining 4 letters and
starts with the last letter of `w1Ex`). -/
def w2Ex : List Char := ['k', 'c', 'f', 'i', 'l']

/-- Word source whose two words chain into a full cover of the box. -/
def linesChainEx : List (List Char) := [w1Ex, w2Ex]

/-- The solver built from `gsEx` and `linesChainEx` (checked by `decide`
against `LetterBoxedSolver.new` in the witnesses). -/
def exSolver : LetterBoxedSolver :=
  { available_chars :=
      {'a', 'b', 'c', 'd', 'e', 'f', 'g', 'h', 'i', 'j', 'k', 'l'}
    dictionary := [w1Ex, w2Ex]
    start_letter_dictionary := [('a', [w1Ex]), ('k', [w2Ex])] }

/-- The solutions `a_star` finds for `exSolver` (the two-word chain is
reached twice, once at depth ceiling 1 and once through re-expansion at
ceiling 2). -/
def exSolutions : List (List (List Char)) := [[w1Ex, w2Ex], [w1Ex, w2Ex]]

/-- The seeded state for `w1Ex` in `exSolver`. -/
def seedEx : State :=
  { chain := [w1Ex], last_word := w1Ex, last_char := 'k', cost := 1
    heuristic := 4 }

/-- The state obtained by expanding `seedEx` with `w2Ex`. -/
def nextEx : State :=
  { chain := [w1Ex, w2Ex], last_word := w2Ex, last_char := 'l', cost := 2
    heuristic := 0 }

/-- A goal state over a two-letter alphabet used to exercise the stopping
policy at depth ceiling 4. -/
def goalStateEx : State :=
  { chain := [['a', 'b']], last_word := ['a', 'b'], last_char := 'b'
    cost := 1, heuristic := 0 }

/-- The solver built from `gsEx` and `linesOrderEx` (checked by `decide`
against `LetterBoxedSolver.new` in the witnesses): the dictionary is sorted
longest-first while the `'a'` bucket keeps encounter order. -/
def orderSolverEx : LetterBoxedSolver :=
  { available_chars :=
      {'a', 'b', 'c', 'd', 'e', 'f', 'g', 'h', 'i', 'j', 'k', 'l'}
    dictionary := [['a', 'd', 'g', 'j'], ['a', 'd', 'g']]
    start_letter_dictionary := [('a', [['a', 'd', 'g'], ['a', 'd', 'g', 'j']])] }

/-! ### Helper lemmas about the heap model -/

/-- A frontier with `popMin = none` is empty. -/
theorem popMin_eq_none {q : List State} (h : popMin q = none) : q = [] := by
  cases q with
  | nil => rfl
  | cons s rest =>
    rw [popMin] at h
    split at h
    · simp at h
    · split at h <;> simp at h

/-- The popped state comes from the frontier and the residue is contained in
the frontier. -/
theorem popMin_mem : ∀ {q : List State} {s : State} {rest : List State},
    popMin q = some (s, rest) → s ∈ q ∧ ∀ x ∈ rest, x ∈ q := by
  intro q
  induction q with
  | nil => intro s rest h; simp [popMin] at h
  | cons a t ih =>
    intro s rest h
    rw [popMin] at h
    split at h
    · simp only [Option.some.injEq, Prod.mk.injEq] at h
      obtain ⟨rfl, rfl⟩ := h
      exact ⟨List.mem_cons_self _ _, by intro x hx; cases hx⟩
    · rename_i m rest' heq
      obtain ⟨hm, hr⟩ := ih heq
      split at h <;> simp only [Option.some.injEq, Prod.mk.injEq] at h <;>
        obtain ⟨rfl, rfl⟩ := h
      · exact ⟨List.mem_cons_self _ _, fun x hx => List.mem_cons_of_mem _ hx⟩
      · refine ⟨List.mem_cons_of_mem _ hm, ?_⟩
        intro x hx
        rcases List.mem_cons.1 hx with rfl | hx'
        · exact List.mem_cons_self _ _
        · exact List.mem_cons_of_mem _ (hr x hx')

/-- Popping preserves any additive weight of the frontier. -/
theorem popMin_sum (f : State → Nat) : ∀ {q : List State} {s : State}
    {rest : List State}, popMin q = some (s, rest) →
    (q.map f).sum = f s + (rest.map f).sum := by
  intro q
  induction q with
  | nil => intro s rest h; simp [popMin] at h
  | cons a t ih =>
    intro s rest h
    rw [popMin] at h
    split at h
    · rename_i heq
      simp only [Option.some.injEq, Prod.mk.injEq] at h
      obtain ⟨rfl, rfl⟩ := h
      have ht : t = [] := popMin_eq_none heq
      subst ht
      simp
    · rename_i m rest' heq
      have hsum := ih heq
      split at h <;> simp only [Option.some.injEq, Prod.mk.injEq] at h <;>
        obtain ⟨rfl, rfl⟩ := h
      · simp
      · simp only [List.map_cons, List.sum_cons] at hsum ⊢
        omega

/-! ### Helper lemmas about the stable sort -/

/-- Membership in an insertion. -/
theorem mem_insertBy {lt : α → α → Bool} {x a : α} :
    ∀ {l : List α}, a ∈ insertBy lt x l ↔ a = x ∨ a ∈ l := by
  intro l
  induction l with
  | nil => simp [insertBy]
  | cons y ys ih =>
    rw [insertBy]
    split
    · simp only [List.mem_cons, ih]
      try tauto
    · simp only [List.mem_cons]
      try tauto

/-- Insertion is a permutation of consing. -/
theorem insertBy_perm (lt : α → α → Bool) (x : α) :
    ∀ (l : List α), (insertBy lt x l).Perm (x :: l) := by
  intro l
  induction l with
  | nil => rfl
  | cons y ys ih =>
    rw [insertBy]
    split
    · exact (ih.cons y).trans (List.Perm.swap x y ys)
    · rfl

/-- The stable sort is a permutation of its input. -/
theorem sortBy_perm (lt : α → α → Bool) :
    ∀ (l : List α), (sortBy lt l).Perm l := by
  intro l
  induction l with
  | nil => rfl
  | cons x xs ih => exact (insertBy_perm lt x (sortBy lt xs)).trans (ih.cons x)

/-- Membership is preserved by the stable sort. -/
theorem mem_sortBy {lt : α → α → Bool} {a : α} {l : List α} :
    a ∈ sortBy lt l ↔ a ∈ l :=
  (sortBy_perm lt l).mem_iff

/-- An insertion splits the list at the first element not strictly smaller
than the inserted one; everything before the insertion point is strictly
smaller. -/
theorem insertBy_split (lt : α → α → Bool) (x : α) :
    ∀ (l : List α), ∃ l₁ l₂, l = l₁ ++ l₂ ∧
      insertBy lt x l = l₁ ++ x :: l₂ ∧ ∀ y ∈ l₁, lt y x = true := by
  intro l
  induction l with
  | nil => exact ⟨[], [], rfl, rfl, by simp⟩
  | cons y ys ih =>
    by_cases hc : lt y x = true
    · obtain ⟨l₁, l₂, he, hi, hall⟩ := ih
      refine ⟨y :: l₁, l₂, by simp [he], ?_, ?_⟩
      · rw [insertBy, if_pos hc, hi]; rfl
      · intro z hz
        rcases List.mem_cons.1 hz with rfl | hz'
        · exact hc
        · exact hall z hz'
    · exact ⟨[], y :: ys, rfl, by rw [insertBy, if_neg hc]; rfl, by simp⟩

/-- Inserting into a descending-by-length-sorted list keeps it sorted. -/
theorem pairwise_insertBy_wordLt {x : List Char} :
    ∀ {l : List (List Char)},
      l.Pairwise (fun a b => b.length ≤ a.length) →
      (insertBy wordLt x l).Pairwise (fun a b => b.length ≤ a.length) := by
  intro l
  induction l with
  | nil => intro _; simp [insertBy]
  | cons y ys ih =>
    intro h
    rw [List.pairwise_cons] at h
    obtain ⟨hy, hys⟩ := h
    by_cases hc : wordLt y x = true
    · rw [insertBy, if_pos hc]
      refine List.Pairwise.cons ?_ (ih hys)
      intro z hz
      rcases mem_insertBy.1 hz with rfl | hz'
      · have : z.length < y.length := by simpa [wordLt] using hc
        omega
      · exact hy z hz'
    · rw [insertBy, if_neg hc]
      have hxy : y.length ≤ x.length := by
        have : ¬ x.length < y.length := by simpa [wordLt] using hc
        omega
      refine List.Pairwise.cons ?_ (List.Pairwise.cons hy hys)
      intro z hz
      rcases List.mem_cons.1 hz with rfl | hz'
      · exact hxy
      · exact le_trans (hy z hz') hxy

/-- The sorted dictionary is ordered by non-increasing length. -/
theorem sortByLenDesc_pairwise (l : List (List Char)) :
    (sortByLenDesc l).Pairwise (fun a b => b.length ≤ a.length) := by
  induction l with
  | nil => simp [sortByLenDesc, sortBy]
  | cons x xs ih => exact pairwise_insertBy_wordLt ih

/-- Effect of one insertion on the sub-sequence of words of a fixed length:
the inserted word lands in front of the equal-length words (everything it
skipped was strictly longer). -/
theorem filter_insertBy_wordLt (n : Nat) (x : List Char) (l : List (List Char)) :
    (insertBy wordLt x l).filter (fun w => w.length == n) =
      if x.length = n then x :: l.filter (fun w => w.length == n)
      else l.filter (fun w => w.length == n) := by
  obtain ⟨l₁, l₂, he, hi, hall⟩ := insertBy_split wordLt x l
  rw [hi, List.filter_append, List.filter_cons, he, List.filter_append]
  by_cases hx : x.length = n
  · have hl₁ : l₁.filter (fun w => w.length == n) = [] := by
      rw [List.filter_eq_nil_iff]
      intro y hy
      have : x.length < y.length := by simpa [wordLt] using hall y hy
      simp only [beq_iff_eq]
      omega
    simp [hl₁, hx]
  · simp [hx]

/-- The stable sort preserves the relative order of words of equal length:
the length-`n` sub-sequence of the sorted dictionary is the length-`n`
sub-sequence of the input, in the same order. -/
theorem sortByLenDesc_filter (l : List (List Char)) (n : Nat) :
    (sortByLenDesc l).filter (fun w => w.length == n) =
      l.filter (fun w => w.length == n) := by
  induction l with
  | nil => rfl
  | cons x xs ih =>
    show (insertBy wordLt x (sortBy wordLt xs)).filter _ = _
    rw [filter_insertBy_wordLt, List.filter_cons]
    by_cases hx : x.length = n
    · simpa [hx] using congrArg (List.cons x) ih
    · simpa [hx] using ih

/-! ### The word validator -/

/-- The group scan of the validator detects exactly a shared group of the
first two characters. -/
theorem anyPair_iff (letter_groups : List (List Char)) (c0 c1 : Char) :
    (letter_groups.any (fun g => g.contains c0 && g.contains c1) = true) ↔
      ∃ g ∈ letter_groups, c0 ∈ g ∧ c1 ∈ g := by
  simp [List.any_eq_true]

/-- Core correctness of the recursive validator on words with at least two
characters: it answers `some true` exactly when no two adjacent characters
share a letter group. -/
theorem ilp_spec (letter_groups : List (List Char)) :
    ∀ (rest : List Char) (c0 c1 : Char),
      (is_letter_pattern_in_letter_box letter_groups (c0 :: c1 :: rest) = some true ↔
        (c0 :: c1 :: rest).Chain' (adjOK letter_groups)) := by
  intro rest
  induction rest with
  | nil =>
    intro c0 c1
    rw [is_letter_pattern_in_letter_box]
    by_cases h : letter_groups.any (fun g => g.contains c0 && g.contains c1) = true
    · rw [if_pos h]
      simp only [List.chain'_cons, List.chain'_singleton, and_true]
      constructor
      · intro hfalse; exact absurd hfalse (by simp)
      · intro hadj; exact absurd ((anyPair_iff _ _ _).1 h) hadj
    · rw [if_neg h]
      simp only [List.chain'_cons, List.chain'_singleton, and_true]
      constructor
      · intro _; exact fun hex => h ((anyPair_iff _ _ _).2 hex)
      · intro _; trivial
  | cons c2 rest2 ih =>
    intro c0 c1
    rw [is_letter_pattern_in_letter_box]
    by_cases h : letter_groups.any (fun g => g.contains c0 && g.contains c1) = true
    · rw [if_pos h]
      simp only [List.chain'_cons]
      constructor
      · intro hfalse; exact absurd hfalse (by simp)
      · intro hadj; exact absurd ((anyPair_iff _ _ _).1 h) hadj.1
    · rw [if_neg h]
      have hadj : adjOK letter_groups c0 c1 := fun hex => h ((anyPair_iff _ _ _).2 hex)
      rw [ih c1 c2]
      simp only [List.chain'_cons]
      tauto

/-- The validator never reaches the panic branch on words of length at least
two, and its boolean answer is the adjacency condition. -/
theorem ilp_eq_some (letter_groups : List (List Char)) (w : List Char)
    (hw : 2 ≤ w.length) :
    (is_letter_pattern_in_letter_box letter_groups w = some true ↔
      w.Chain' (adjOK letter_groups)) := by
  match w with
  | [] => simp at hw
  | [c] => simp at hw
  | c0 :: c1 :: rest => exact ilp_spec letter_groups rest c0 c1

/-! ### The dictionary builder -/

/-- Duplicate detection through the character set: the set of characters has
the word's length exactly when the word has no repeated character. -/
theorem toFinset_card_eq_iff_nodup (w : List Char) :
    w.toFinset.card = w.length ↔ w.Nodup := by
  constructor
  · intro h
    rw [List.card_toFinset] at h
    have hsub := List.dedup_sublist w
    have he := hsub.eq_of_length h
    rw [← he]
    exact List.nodup_dedup w
  · exact List.toFinset_card_of_nodup

/-- The acceptance test of the reading loop agrees with the specification's
step list. -/
theorem acceptWord_iff_spec (no_duplicate_letters : Bool)
    (available_chars : Finset Char) (letter_groups : List (List Char))
    (word : List Char) :
    acceptWord no_duplicate_letters available_chars letter_groups word = true ↔
      specAcceptWord no_duplicate_letters available_chars letter_groups word := by
  rw [acceptWord]
  split
  · rename_i h1
    simp only [Bool.false_eq_true, false_iff, specAcceptWord]
    intro hs
    omega
  · rename_i h1
    split
    · rename_i h2
      simp only [Bool.false_eq_true, false_iff, specAcceptWord]
      rintro ⟨_, hnd, _, _⟩
      exact h2.2 ((toFinset_card_eq_iff_nodup word).2 (hnd h2.1))
    · rename_i h2
      split
      · rename_i h3
        simp only [Bool.false_eq_true, false_iff, specAcceptWord]
        rintro ⟨_, _, hmem, _⟩
        obtain ⟨c, hc⟩ := Finset.card_pos.1 h3
        rw [Finset.mem_sdiff, List.mem_toFinset] at hc
        exact hc.2 (hmem c hc.1)
      · rename_i h3
        have hlen : 3 ≤ word.length ∧ word.length ≤ 12 := by omega
        have hnd : no_duplicate_letters = true → word.Nodup := by
          intro h
          by_cases hcard : word.toFinset.card = word.length
          · exact (toFinset_card_eq_iff_nodup word).1 hcard
          · exact absurd ⟨h, hcard⟩ h2
        have hmem : ∀ c ∈ word, c ∈ available_chars := by
          intro c hc
          by_contra hc'
          have : c ∈ word.toFinset \ available_chars := by
            rw [Finset.mem_sdiff, List.mem_toFinset]; exact ⟨hc, hc'⟩
          have : 0 < (word.toFinset \ available_chars).card :=
            Finset.card_pos.2 ⟨c, this⟩
          omega
        rw [decide_eq_true_eq, ilp_eq_some letter_groups word (by omega)]
        unfold specAcceptWord
        tauto

/-- Accepted words are nonempty, bounded in length, and use only allowed
letters. -/
theorem acceptedWords_facts {letter_groups : List (List Char)}
    {lines : List (List Char)} {w : List Char}
    (hw : w ∈ acceptedWords letter_groups lines) :
    3 ≤ w.length ∧ w.length ≤ 12 ∧ (∀ c ∈ w, c ∈ availableOf letter_groups) ∧
      w.Chain' (adjOK letter_groups) := by
  rw [acceptedWords, List.mem_filter] at hw
  have hs := (acceptWord_iff_spec _ _ _ _).1 hw.2
  obtain ⟨⟨h3, h12⟩, _, hmem, hadj⟩ := hs
  exact ⟨h3, h12, hmem, hadj⟩

/-! ### The start-letter buckets -/

/-- Effect of one bucket insertion on an arbitrary key. -/
theorem lookup_addToBucket (c' k : Char) (w : List Char) :
    ∀ (m : List (Char × List (List Char))),
      (lookupBucket (addToBucket m k w) c').getD [] =
        (lookupBucket m c').getD [] ++ if k = c' then [w] else [] := by
  intro m
  induction m with
  | nil =>
    by_cases h : k = c' <;> simp [addToBucket, lookupBucket, h]
  | cons p rest ih =>
    obtain ⟨k0, ws⟩ := p
    rw [addToBucket]
    by_cases h0 : k0 = k
    · rw [if_pos h0]
      by_cases h1 : k0 = c'
      · subst h0; subst h1
        simp [lookupBucket]
      · have : ¬ k = c' := by rw [← h0]; exact h1
        simp [lookupBucket, h1, this]
    · rw [if_neg h0]
      by_cases h1 : k0 = c'
      · have : ¬ k = c' := by intro he; exact h0 (by rw [he, h1])
        simp [lookupBucket, h1, this]
      · simp [lookupBucket, h1, ih]

/-- The bucket of `c` after the building fold: the words already bucketed
under `c` followed by the new words whose first character is `c`, in
encounter order. -/
theorem foldl_buckets (c : Char) :
    ∀ (ws : List (List Char)) (m : List (Char × List (List Char))),
      (lookupBucket (ws.foldl (fun m w => addToBucket m (w.headD '?') w) m) c).getD [] =
        (lookupBucket m c).getD [] ++ ws.filter (fun w => w.headD '?' == c) := by
  intro ws
  induction ws with
  | nil => intro m; simp
  | cons w ws ih =>
    intro m
    rw [List.foldl_cons, ih, lookup_addToBucket, List.filter_cons]
    by_cases h : w.headD '?' = c
    · rw [if_pos h, if_pos (beq_iff_eq.2 h)]
      rw [List.append_assoc, List.singleton_append]
    · rw [if_neg h, if_neg (by simpa using h), List.append_nil]

/-- The start-letter map built by the reading loop holds, under each letter,
exactly the accepted words starting with that letter, in encounter order. -/
theorem buildBuckets_eq (words : List (List Char)) (c : Char) :
    (lookupBucket (buildBuckets words) c).getD [] =
      words.filter (fun w => w.headD '?' == c) := by
  rw [buildBuckets, foldl_buckets]
  simp [lookupBucket]

/-- A nonempty list's optional head is its defaulted head. -/
theorem head?_eq_headD {w : List Char} (hw : w ≠ []) :
    w.head? = some (w.headD '?') := by
  cases w with
  | nil => exact absurd rfl hw
  | cons c cs => rfl

/-- A nonempty list's optional last element is its defaulted last element. -/
theorem getLast?_eq_getLastD {w : List Char} (hw : w ≠ []) :
    w.getLast? = some (w.getLastD '?') := by
  rw [List.getLastD_eq_getLast?, List.getLast?_eq_getLast w hw]
  rfl

/-- Every word of a bucket is one of the bucketed words and starts with the
bucket's letter. -/
theorem mem_bucket {words : List (List Char)} {c : Char}
    {ws : List (List Char)} (hne : ∀ w ∈ words, w ≠ [])
    (h : lookupBucket (buildBuckets words) c = some ws) :
    ∀ w ∈ ws, w ∈ words ∧ w.head? = some c := by
  intro w hw
  have he := buildBuckets_eq words c
  rw [h] at he
  simp only [Option.getD_some] at he
  subst he
  rw [List.mem_filter] at hw
  obtain ⟨hmem, hhead⟩ := hw
  have hd : w.headD '?' = c := by simpa using hhead
  exact ⟨hmem, by rw [head?_eq_headD (hne w hmem), hd]⟩

/-- Bucket lengths are bounded by `bucketBound`. -/
theorem lookupBucket_length_le :
    ∀ {graph : List (Char × List (List Char))} {c : Char} {ws : List (List Char)},
      lookupBucket graph c = some ws → ws.length ≤ bucketBound graph := by
  intro graph
  induction graph with
  | nil => intro c ws h; simp [lookupBucket] at h
  | cons p rest ih =>
    intro c ws h
    obtain ⟨k, ws0⟩ := p
    rw [lookupBucket] at h
    have hbb : bucketBound ((k, ws0) :: rest) = Nat.max ws0.length (bucketBound rest) := rfl
    split at h
    · obtain rfl : ws0 = ws := by simpa using h
      rw [hbb]; exact Nat.le_max_left _ _
    · exact le_trans (ih h) (by rw [hbb]; exact Nat.le_max_right _ _)

/-! ### The heuristic -/

/-- The heuristic counts exactly the allowed letters missing from the chain,
and vanishes exactly when the chain covers every allowed letter. -/
theorem heuristic_eq_zero_iff (chain : List (List Char)) (chars : Finset Char) :
    heuristic chain chars = 0 ↔ ∀ c ∈ chars, ∃ w ∈ chain, c ∈ w := by
  rw [heuristic, Finset.card_eq_zero, Finset.sdiff_eq_empty_iff_subset,
    Finset.subset_iff]
  constructor
  · intro h c hc
    have := h hc
    simpa [List.mem_toFinset, List.mem_flatMap] using this
  · intro h c hc
    have := h c hc
    simpa [List.mem_toFinset, List.mem_flatMap] using this

/-- The heuristic as a filtered count over the allowed letters. -/
theorem heuristic_eq_filter_card (chain : List (List Char)) (chars : Finset Char) :
    heuristic chain chars =
      (chars.filter (fun c => chain.all (fun w => !(w.contains c)) = true)).card := by
  rw [heuristic, Finset.sdiff_eq_filter]
  congr 1
  apply Finset.filter_congr
  intro c _
  simp [List.mem_toFinset, List.mem_flatMap, List.all_eq_true]

/-- A zero heuristic makes the chain's letters cover all of `chars`. -/
theorem heuristic_zero_covers {chain : List (List Char)} {chars : Finset Char}
    (h : heuristic chain chars = 0) : chars ⊆ (chain.flatMap id).toFinset := by
  rw [heuristic, Finset.card_eq_zero, Finset.sdiff_eq_empty_iff_subset] at h
  exact h

/-! ### Termination measure of the inner loop -/

/-- State weights are positive. -/
theorem stateWeight_pos (L D : Nat) (s : State) : 0 < stateWeight L D s :=
  Nat.pow_pos (Nat.succ_pos D)

/-- Summing a constant function over a list. -/
theorem map_sum_const {l : List α} {f : α → Nat} {c : Nat}
    (h : ∀ x ∈ l, f x = c) : (l.map f).sum = l.length * c := by
  induction l with
  | nil => simp
  | cons x xs ih =>
    rw [List.map_cons, List.sum_cons, h x (List.mem_cons_self _ _),
      ih (fun y hy => h y (List.mem_cons_of_mem _ hy)), List.length_cons]
    ring

/-- Expansion lengthens the chain by exactly one word. -/
theorem expandState_chain_length {graph : List (Char × List (List Char))}
    {ignore_words : List (List Char)} {available_chars : Finset Char}
    {s t : State} (ht : t ∈ expandState graph ignore_words available_chars s) :
    t.chain.length = s.chain.length + 1 := by
  rw [expandState] at ht
  split at ht
  · cases ht
  · obtain ⟨w, _, rfl⟩ := List.mem_map.1 ht
    simp

/-- Expansion pushes at most `bucketBound graph` states. -/
theorem expandState_length_le (graph : List (Char × List (List Char)))
    (ignore_words : List (List Char)) (available_chars : Finset Char)
    (s : State) :
    (expandState graph ignore_words available_chars s).length ≤ bucketBound graph := by
  rw [expandState]
  split
  · simp
  · rename_i ws h
    rw [List.length_map]
    exact le_trans (List.length_filter_le _ _) (lookupBucket_length_le h)

/-- The measure is additive over concatenation. -/
theorem queueMeasure_append (L D : Nat) (q1 q2 : List State) :
    queueMeasure L D (q1 ++ q2) = queueMeasure L D q1 + queueMeasure L D q2 := by
  rw [queueMeasure, List.map_append, List.sum_append]; rfl

/-- The states pushed by one expansion weigh strictly less than the expanded
state, provided its chain fits under the depth ceiling. -/
theorem queueMeasure_expand {graph : List (Char × List (List Char))}
    {ignore_words : List (List Char)} {available_chars : Finset Char}
    {s : State} (L : Nat) (h : s.chain.length ≤ L) :
    queueMeasure L (bucketBound graph)
        (expandState graph ignore_words available_chars s) <
      stateWeight L (bucketBound graph) s := by
  have hc : ∀ t ∈ expandState graph ignore_words available_chars s,
      stateWeight L (bucketBound graph) t =
        (bucketBound graph + 1) ^ (L - s.chain.length) := by
    intro t ht
    rw [stateWeight, expandState_chain_length ht]
    congr 1
    omega
  rw [queueMeasure, map_sum_const hc]
  have hlen := expandState_length_le graph ignore_words available_chars s
  have hpow : 0 < (bucketBound graph + 1) ^ (L - s.chain.length) :=
    Nat.pow_pos (Nat.succ_pos _)
  calc (expandState graph ignore_words available_chars s).length *
        (bucketBound graph + 1) ^ (L - s.chain.length)
      ≤ bucketBound graph * (bucketBound graph + 1) ^ (L - s.chain.length) :=
        Nat.mul_le_mul_right _ hlen
    _ < (bucketBound graph + 1) * (bucketBound graph + 1) ^ (L - s.chain.length) :=
        mul_lt_mul_of_pos_right (by omega) hpow
    _ = stateWeight L (bucketBound graph) s := by
        rw [← pow_succ', stateWeight]
        congr 1
        omega

/-! ### Reduction equations of the inner loop -/

/-- Unfolding `drainLoopF` on an empty frontier. -/
theorem drainLoopF_none {graph : List (Char × List (List Char))}
    {ignore_words : List (List Char)} {available_chars : Finset Char}
    {L fuel : Nat} {q v : List State} {sols : List (List (List Char))}
    (hq : popMin q = none) :
    drainLoopF graph ignore_words available_chars L (fuel + 1) q v sols =
      Sum.inr (sols, v) := by
  rw [drainLoopF, hq]

/-- Unfolding `drainLoopF` on a successful pop. -/
theorem drainLoopF_some {graph : List (Char × List (List Char))}
    {ignore_words : List (List Char)} {available_chars : Finset Char}
    {L fuel : Nat} {q v rest : List State} {s : State}
    {sols : List (List (List Char))}
    (hq : popMin q = some (s, rest)) :
    drainLoopF graph ignore_words available_chars L (fuel + 1) q v sols =
      if s.chain.length > L then
        drainLoopF graph ignore_words available_chars L fuel rest (v ++ [s]) sols
      else if s.heuristic = 0 then
        (if L > 3 ∨ return_after ≤ (sols ++ [s.chain]).length then
          Sum.inl (sols ++ [s.chain])
        else
          drainLoopF graph ignore_words available_chars L fuel
            (rest ++ expandState graph ignore_words available_chars s)
            (v ++ [s]) (sols ++ [s.chain]))
      else
        drainLoopF graph ignore_words available_chars L fuel
          (rest ++ expandState graph ignore_words available_chars s)
          (v ++ [s]) sols := by
  rw [drainLoopF, hq]

/-- The inner loop's result does not depend on the fuel once the fuel
exceeds the frontier measure: the fuel-exhaustion branch is unreachable,
so `drainLoop`'s choice of fuel gives the exact loop semantics. -/
theorem drainLoopF_stable (graph : List (Char × List (List Char)))
    (ignore_words : List (List Char)) (available_chars : Finset Char)
    (L : Nat) :
    ∀ (f1 : Nat) {f2 : Nat} {q v : List State} {sols : List (List (List Char))},
      queueMeasure L (bucketBound graph) q < f1 →
      queueMeasure L (bucketBound graph) q < f2 →
      drainLoopF graph ignore_words available_chars L f1 q v sols =
        drainLoopF graph ignore_words available_chars L f2 q v sols := by
  intro f1
  induction f1 with
  | zero => intro f2 q v sols h1 _; exact absurd h1 (Nat.not_lt_zero _)
  | succ a ih =>
    intro f2 q v sols h1 h2
    cases f2 with
    | zero => exact absurd h2 (Nat.not_lt_zero _)
    | succ b =>
      cases hq : popMin q with
      | none => rw [drainLoopF_none hq, drainLoopF_none hq]
      | some p =>
        obtain ⟨s, rest⟩ := p
        have hq' : queueMeasure L (bucketBound graph) q =
            stateWeight L (bucketBound graph) s +
              queueMeasure L (bucketBound graph) rest :=
          popMin_sum (stateWeight L (bucketBound graph)) hq
        have hw : 0 < stateWeight L (bucketBound graph) s := stateWeight_pos _ _ _
        rw [drainLoopF_some hq, drainLoopF_some hq]
        by_cases hlen : s.chain.length > L
        · rw [if_pos hlen, if_pos hlen]
          exact ih (by omega) (by omega)
        · rw [if_neg hlen, if_neg hlen]
          have hexp : queueMeasure L (bucketBound graph)
              (expandState graph ignore_words available_chars s) <
                stateWeight L (bucketBound graph) s :=
            queueMeasure_expand L (by omega)
          have hrec : queueMeasure L (bucketBound graph)
              (rest ++ expandState graph ignore_words available_chars s) <
                queueMeasure L (bucketBound graph) q := by
            rw [queueMeasure_append]
            omega
          by_cases h0 : s.heuristic = 0
          · rw [if_pos h0, if_pos h0]
            by_cases hret : L > 3 ∨ return_after ≤ (sols ++ [s.chain]).length
            · rw [if_pos hret, if_pos hret]
            · rw [if_neg hret, if_neg hret]
              exact ih (by omega) (by omega)
          · rw [if_neg h0, if_neg h0]
            exact ih (by omega) (by omega)

/-! ### Invariant preservation over the search loops -/

/-- Generic preservation lemma for the inner loop: if a state predicate `P`
is closed under expansion and every recorded solution chain (the chain of a
`P`-state with cached heuristic 0) satisfies `Q`, then every chain in the
returned solutions satisfies `Q`, and every state on the visited heap
satisfies `P`. -/
theorem drainLoopF_pres (graph : List (Char × List (List Char)))
    (ignore_words : List (List Char)) (available_chars : Finset Char)
    (L : Nat) (P : State → Prop) (Q : List (List Char) → Prop)
    (hexp : ∀ s, P s →
      ∀ t ∈ expandState graph ignore_words available_chars s, P t)
    (hsol : ∀ s, P s → s.heuristic = 0 → Q s.chain) :
    ∀ (fuel : Nat) (q v : List State) (sols : List (List (List Char))),
      (∀ s ∈ q, P s) → (∀ s ∈ v, P s) → (∀ ch ∈ sols, Q ch) →
      (∀ s', drainLoopF graph ignore_words available_chars L fuel q v sols =
          Sum.inl s' → ∀ ch ∈ s', Q ch) ∧
      (∀ s' v', drainLoopF graph ignore_words available_chars L fuel q v sols =
          Sum.inr (s', v') → (∀ ch ∈ s', Q ch) ∧ (∀ s ∈ v', P s)) := by
  intro fuel
  induction fuel with
  | zero =>
    intro q v sols hq hv hsols
    refine ⟨?_, ?_⟩
    · intro s' h; cases h
    · intro s' v' h
      rw [drainLoopF] at h
      obtain ⟨rfl, rfl⟩ : sols = s' ∧ v = v' := by
        simpa [Sum.inr.injEq, Prod.mk.injEq] using h
      exact ⟨hsols, hv⟩
  | succ fuel ih =>
    intro q v sols hq hv hsols
    cases hpop : popMin q with
    | none =>
      rw [drainLoopF_none hpop]
      refine ⟨?_, ?_⟩
      · intro s' h; cases h
      · intro s' v' h
        obtain ⟨rfl, rfl⟩ : sols = s' ∧ v = v' := by
          simpa [Sum.inr.injEq, Prod.mk.injEq] using h
        exact ⟨hsols, hv⟩
    | some p =>
      obtain ⟨s, rest⟩ := p
      obtain ⟨hsq, hrest⟩ := popMin_mem hpop
      have hPs : P s := hq s hsq
      have hrest' : ∀ x ∈ rest, P x := fun x hx => hq x (hrest x hx)
      have hv' : ∀ x ∈ v ++ [s], P x := by
        intro x hx
        rcases List.mem_append.1 hx with hx' | hx'
        · exact hv x hx'
        · obtain rfl : x = s := by simpa using hx'
          exact hPs
      have hqexp : ∀ x ∈ rest ++ expandState graph ignore_words available_chars s,
          P x := by
        intro x hx
        rcases List.mem_append.1 hx with hx' | hx'
        · exact hrest' x hx'
        · exact hexp s hPs x hx'
      rw [drainLoopF_some hpop]
      by_cases hlen : s.chain.length > L
      · rw [if_pos hlen]
        exact ih rest (v ++ [s]) sols hrest' hv' hsols
      · rw [if_neg hlen]
        by_cases h0 : s.heuristic = 0
        · rw [if_pos h0]
          have hsols' : ∀ ch ∈ sols ++ [s.chain], Q ch := by
            intro ch hch
            rcases List.mem_append.1 hch with hch' | hch'
            · exact hsols ch hch'
            · obtain rfl : ch = s.chain := by simpa using hch'
              exact hsol s hPs h0
          by_cases hret : L > 3 ∨ return_after ≤ (sols ++ [s.chain]).length
          · rw [if_pos hret]
            refine ⟨?_, ?_⟩
            · intro s' h
              obtain rfl : sols ++ [s.chain] = s' := by simpa using h
              exact hsols'
            · intro s' v' h; cases h
          · rw [if_neg hret]
            exact ih _ (v ++ [s]) _ hqexp hv' hsols'
        · rw [if_neg h0]
          exact ih _ (v ++ [s]) _ hqexp hv' hsols

/-- States coming out of the visited-to-frontier transfer come from the
visited heap or the frontier it is pushed onto. -/
theorem mem_drainHeapF :
    ∀ (fuel : Nat) (visited queue : List State) (x : State),
      x ∈ drainHeapF fuel visited queue → x ∈ visited ∨ x ∈ queue := by
  intro fuel
  induction fuel with
  | zero => intro visited queue x hx; exact Or.inr hx
  | succ fuel ih =>
    intro visited queue x hx
    rw [drainHeapF] at hx
    split at hx
    · exact Or.inr hx
    · rename_i s rest heq
      obtain ⟨hs, hrest⟩ := popMin_mem heq
      rcases ih rest (queue ++ [s]) x hx with hx' | hx'
      · exact Or.inl (hrest x hx')
      · rcases List.mem_append.1 hx' with hx'' | hx''
        · exact Or.inr hx''
        · obtain rfl : x = s := by simpa using hx''
          exact Or.inl hs

/-- Unfolding `searchLevels` when the drain returns early. -/
theorem searchLevels_cons_inl {graph : List (Char × List (List Char))}
    {ignore_words : List (List Char)} {available_chars : Finset Char}
    {l : Nat} {ls : List Nat} {q : List State}
    {sols0 s' : List (List (List Char))}
    (h : drainLoop graph ignore_words available_chars l q = Sum.inl s') :
    searchLevels graph ignore_words available_chars (l :: ls) q sols0 =
      some s' := by
  rw [searchLevels, h]

/-- Unfolding `searchLevels` when the drain finishes the frontier. -/
theorem searchLevels_cons_inr {graph : List (Char × List (List Char))}
    {ignore_words : List (List Char)} {available_chars : Finset Char}
    {l : Nat} {ls : List Nat} {q : List State}
    {sols0 s' : List (List (List Char))} {v' : List State}
    (h : drainLoop graph ignore_words available_chars l q = Sum.inr (s', v')) :
    searchLevels graph ignore_words available_chars (l :: ls) q sols0 =
      if s'.length > 0 then some s'
      else searchLevels graph ignore_words available_chars ls
        (drainHeap v' []) s' := by
  rw [searchLevels, h]

/-- Generic preservation lemma for the outer depth-ceiling loop: chains of
any solutions list it returns satisfy `Q`. -/
theorem searchLevels_pres (graph : List (Char × List (List Char)))
    (ignore_words : List (List Char)) (available_chars : Finset Char)
    (P : State → Prop) (Q : List (List Char) → Prop)
    (hexp : ∀ s, P s →
      ∀ t ∈ expandState graph ignore_words available_chars s, P t)
    (hsol : ∀ s, P s → s.heuristic = 0 → Q s.chain) :
    ∀ (ls : List Nat) (q : List State) (sols0 : List (List (List Char))),
      (∀ s ∈ q, P s) → (∀ ch ∈ sols0, Q ch) →
      ∀ (sols : List (List (List Char))),
        searchLevels graph ignore_words available_chars ls q sols0 = some sols →
        ∀ ch ∈ sols, Q ch := by
  intro ls
  induction ls with
  | nil =>
    intro q sols0 hq hsols0 sols h
    rw [searchLevels] at h
    obtain rfl : sols0 = sols := by simpa using h
    exact hsols0
  | cons l ls ih =>
    intro q sols0 hq hsols0 sols h
    cases hd : drainLoop graph ignore_words available_chars l q with
    | inl s' =>
      rw [searchLevels_cons_inl hd] at h
      obtain rfl : s' = sols := by simpa using h
      exact (drainLoopF_pres graph ignore_words available_chars l P Q hexp hsol
        _ q [] [] hq (by simp) (by simp)).1 s' hd
    | inr p =>
      obtain ⟨s', v'⟩ := p
      rw [searchLevels_cons_inr hd] at h
      have hdrain := (drainLoopF_pres graph ignore_words available_chars l P Q
        hexp hsol _ q [] [] hq (by simp) (by simp)).2 s' v' hd
      split at h
      · obtain rfl : s' = sols := by simpa using h
        exact hdrain.1
      · refine ih (drainHeap v' []) s' ?_ hdrain.1 sols h
        intro x hx
        rcases mem_drainHeapF _ v' [] x hx with hx' | hx'
        · exact hdrain.2 x hx'
        · cases hx'

/-! ### The search-state invariant -/

/-- The defaulted last element of a chain extended by one word. -/
theorem getLastD_append_singleton (l : List (List Char)) (w : List Char) :
    (l ++ [w]).getLastD [] = w :=
  List.getLastD_concat _ _ _

/-- The defaulted last element of a nonempty chain is one of its words. -/
theorem getLastD_mem {l : List (List Char)} (h : l ≠ []) :
    l.getLastD [] ∈ l := by
  rw [List.getLastD_eq_getLast?, List.getLast?_eq_getLast l h]
  exact List.getLast_mem h

/-- Every seeded state satisfies the invariant. -/
theorem seedStates_inv (solver : LetterBoxedSolver)
    (ignore_words : List (List Char)) :
    ∀ s ∈ seedStates solver ignore_words,
      StateInv solver.dictionary solver.available_chars s := by
  intro s hs
  rw [seedStates] at hs
  obtain ⟨w, hw, rfl⟩ := List.mem_map.1 hs
  rw [List.mem_filter] at hw
  refine ⟨by simp, ?_, ?_, ?_, rfl, rfl, rfl⟩
  · intro x hx
    obtain rfl : x = w := by simpa using hx
    exact hw.1
  · exact List.chain'_singleton w
  · rfl

/-- Expansion preserves the invariant, given that every bucket holds
dictionary words starting with the bucket's letter and dictionary words are
nonempty. -/
theorem expandState_inv {graph : List (Char × List (List Char))}
    {ignore_words : List (List Char)} {avail : Finset Char}
    {dict : List (List Char)}
    (hgraph : ∀ c ws, lookupBucket graph c = some ws →
      ∀ w ∈ ws, w ∈ dict ∧ w.head? = some c)
    (hne : ∀ w ∈ dict, w ≠ [])
    (s : State) (hs : StateInv dict avail s) :
    ∀ t ∈ expandState graph ignore_words avail s, StateInv dict avail t := by
  intro t ht
  rw [expandState] at ht
  split at ht
  · cases ht
  · rename_i ws hlook
    obtain ⟨w, hwf, rfl⟩ := List.mem_map.1 ht
    rw [List.mem_filter] at hwf
    obtain ⟨hwmem, hwhead⟩ := hgraph s.last_char ws hlook w hwf.1
    have hlast_mem : s.chain.getLastD [] ∈ s.chain := getLastD_mem hs.chain_ne
    have hlast_ne : s.chain.getLastD [] ≠ [] := hne _ (hs.mem_dict _ hlast_mem)
    refine ⟨by simp, ?_, ?_, ?_, rfl, ?_, rfl⟩
    · intro x hx
      rcases List.mem_append.1 hx with hx' | hx'
      · exact hs.mem_dict x hx'
      · obtain rfl : x = w := by simpa using hx'
        exact hwmem
    · rw [List.chain'_append]
      refine ⟨hs.linked, List.chain'_singleton w, ?_⟩
      intro x hx y hy
      obtain rfl : w = y := by simpa using hy
      have hx' : x = s.chain.getLastD [] := by
        rw [List.getLastD_eq_getLast?]
        cases hc : s.chain.getLast? with
        | none => rw [hc] at hx; cases hx
        | some a =>
          rw [hc] at hx
          obtain rfl : a = x := by simpa using hx
          rfl
      subst hx'
      rw [getLast?_eq_getLastD hlast_ne, hwhead, ← hs.last_word_eq,
        hs.last_char_eq, hs.last_word_eq]
    · rw [getLastD_append_singleton]
    · show s.cost + 1 = (s.chain ++ [w]).length
      rw [hs.cost_eq, List.length_append]
      rfl

/-! ### Facts about the constructed solver -/

/-- Destructuring a successful construction. -/
theorem new_dest {string_groups lines : List (List Char)}
    {solver : LetterBoxedSolver}
    (h : LetterBoxedSolver.new string_groups lines = some solver) :
    ∃ letter_groups, parseGroups string_groups = some letter_groups ∧
      solver.available_chars = availableOf letter_groups ∧
      solver.dictionary = sortByLenDesc (acceptedWords letter_groups lines) ∧
      solver.start_letter_dictionary =
        buildBuckets (acceptedWords letter_groups lines) := by
  rw [LetterBoxedSolver.new] at h
  cases hp : parseGroups string_groups with
  | none => rw [hp] at h; cases h
  | some letter_groups =>
    rw [hp] at h
    simp only [Option.map_some', Option.some.injEq] at h
    exact ⟨letter_groups, rfl, by rw [← h], by rw [← h], by rw [← h]⟩

/-! ### The stopping policy counts -/

/-- At depth ceilings above 3 the drain returns the very first recorded
solution alone, and a completed drain found no solution at all. -/
theorem drainLoopF_count_high (graph : List (Char × List (List Char)))
    (ignore_words : List (List Char)) (available_chars : Finset Char)
    {L : Nat} (hL : 3 < L) :
    ∀ (fuel : Nat) (q v : List State) (sols : List (List (List Char))),
      sols = [] →
      (∀ s', drainLoopF graph ignore_words available_chars L fuel q v sols =
        Sum.inl s' → s'.length = 1) ∧
      (∀ s' v', drainLoopF graph ignore_words available_chars L fuel q v sols =
        Sum.inr (s', v') → s' = []) := by
  intro fuel
  induction fuel with
  | zero =>
    intro q v sols hs
    subst hs
    refine ⟨?_, ?_⟩
    · intro s' h; rw [drainLoopF] at h; cases h
    · intro s' v' h
      rw [drainLoopF] at h
      obtain ⟨rfl, rfl⟩ : ([] : List (List (List Char))) = s' ∧ v = v' := by
        simpa using h
      rfl
  | succ fuel ih =>
    intro q v sols hs
    subst hs
    cases hpop : popMin q with
    | none =>
      rw [drainLoopF_none hpop]
      refine ⟨?_, ?_⟩
      · intro s' h; cases h
      · intro s' v' h
        obtain ⟨rfl, rfl⟩ : ([] : List (List (List Char))) = s' ∧ v = v' := by
          simpa using h
        rfl
    | some p =>
      obtain ⟨s, rest⟩ := p
      rw [drainLoopF_some hpop]
      by_cases hlen : s.chain.length > L
      · rw [if_pos hlen]
        exact ih rest (v ++ [s]) [] rfl
      · rw [if_neg hlen]
        by_cases h0 : s.heuristic = 0
        · rw [if_pos h0, if_pos (Or.inl hL)]
          refine ⟨?_, ?_⟩
          · intro s' h
            obtain rfl : [] ++ [s.chain] = s' := by simpa using h
            rfl
          · intro s' v' h; cases h
        · rw [if_neg h0]
          exact ih _ (v ++ [s]) [] rfl

/-- At depth ceilings up to 3 the drain keeps going until it holds exactly
`return_after = 4` solutions, or finishes the frontier with at most 3. -/
theorem drainLoopF_count_low (graph : List (Char × List (List Char)))
    (ignore_words : List (List Char)) (available_chars : Finset Char)
    {L : Nat} (hL : L ≤ 3) :
    ∀ (fuel : Nat) (q v : List State) (sols : List (List (List Char))),
      sols.length ≤ 3 →
      (∀ s', drainLoopF graph ignore_words available_chars L fuel q v sols =
        Sum.inl s' → s'.length = 4) ∧
      (∀ s' v', drainLoopF graph ignore_words available_chars L fuel q v sols =
        Sum.inr (s', v') → s'.length ≤ 3) := by
  intro fuel
  induction fuel with
  | zero =>
    intro q v sols hs
    refine ⟨?_, ?_⟩
    · intro s' h; rw [drainLoopF] at h; cases h
    · intro s' v' h
      rw [drainLoopF] at h
      obtain ⟨rfl, rfl⟩ : sols = s' ∧ v = v' := by simpa using h
      exact hs
  | succ fuel ih =>
    intro q v sols hs
    cases hpop : popMin q with
    | none =>
      rw [drainLoopF_none hpop]
      refine ⟨?_, ?_⟩
      · intro s' h; cases h
      · intro s' v' h
        obtain ⟨rfl, rfl⟩ : sols = s' ∧ v = v' := by simpa using h
        exact hs
    | some p =>
      obtain ⟨s, rest⟩ := p
      rw [drainLoopF_some hpop]
      by_cases hlen : s.chain.length > L
      · rw [if_pos hlen]
        exact ih rest (v ++ [s]) sols hs
      · rw [if_neg hlen]
        by_cases h0 : s.heuristic = 0
        · rw [if_pos h0]
          have hra : return_after = 4 := rfl
          by_cases hret : L > 3 ∨ return_after ≤ (sols ++ [s.chain]).length
          · rw [if_pos hret]
            refine ⟨?_, ?_⟩
            · intro s' h
              obtain rfl : sols ++ [s.chain] = s' := by simpa using h
              rcases hret with hret | hret
              · omega
              · rw [List.length_append] at hret ⊢
                simp only [List.length_singleton] at hret ⊢
                omega
            · intro s' v' h; cases h
          · rw [if_neg hret]
            refine ih _ (v ++ [s]) _ ?_
            push_neg at hret
            have := hret.2
            rw [List.length_append] at this
            simp only [List.length_singleton] at this
            omega
        · rw [if_neg h0]
          exact ih _ (v ++ [s]) sols hs

/-! ### Totality of the search -/

/-- The outer loop always produces a solutions list. -/
theorem searchLevels_isSome (graph : List (Char × List (List Char)))
    (ignore_words : List (List Char)) (available_chars : Finset Char) :
    ∀ (ls : List Nat) (q : List State) (sols0 : List (List (List Char))),
      ∃ r, searchLevels graph ignore_words available_chars ls q sols0 = some r := by
  intro ls
  induction ls with
  | nil => intro q sols0; exact ⟨sols0, by rw [searchLevels]⟩
  | cons l ls ih =>
    intro q sols0
    cases hd : drainLoop graph ignore_words available_chars l q with
    | inl s' => exact ⟨s', searchLevels_cons_inl hd⟩
    | inr p =>
      obtain ⟨s', v'⟩ := p
      by_cases hlen : s'.length > 0
      · exact ⟨s', by rw [searchLevels_cons_inr hd, if_pos hlen]⟩
      · obtain ⟨r, hr⟩ := ih (drainHeap v' []) s'
        exact ⟨r, by rw [searchLevels_cons_inr hd, if_neg hlen]; exact hr⟩

/-! ### Context facts of a constructed solver -/

/-- Dictionary words of a constructed solver are nonempty and use only
allowed letters; buckets hold dictionary words starting with their letter. -/
theorem solver_context {string_groups lines : List (List Char)}
    {solver : LetterBoxedSolver}
    (h : LetterBoxedSolver.new string_groups lines = some solver) :
    (∀ w ∈ solver.dictionary, w ≠ [] ∧ ∀ c ∈ w, c ∈ solver.available_chars) ∧
    (∀ c ws, lookupBucket solver.start_letter_dictionary c = some ws →
      ∀ w ∈ ws, w ∈ solver.dictionary ∧ w.head? = some c) := by
  obtain ⟨lg, hp, ha, hd, hb⟩ := new_dest h
  have hfacts : ∀ x ∈ acceptedWords lg lines, x ≠ [] := by
    intro x hx he
    have h3 := (acceptedWords_facts hx).1
    rw [he] at h3
    simp at h3
  constructor
  · intro w hw
    rw [hd, sortByLenDesc] at hw
    have hw' : w ∈ acceptedWords lg lines := mem_sortBy.1 hw
    obtain ⟨h3, _, hmem, _⟩ := acceptedWords_facts hw'
    refine ⟨hfacts w hw', ?_⟩
    rw [ha]
    exact hmem
  · intro c ws hws w hw
    rw [hb] at hws
    obtain ⟨hmem, hhead⟩ := mem_bucket hfacts hws w hw
    refine ⟨?_, hhead⟩
    rw [hd, sortByLenDesc]
    exact mem_sortBy.2 hmem

/-! ### Consistency helpers for the implicit state invariant -/

/-- Seeded states have consistent derived fields. -/
theorem seedStates_consistent (solver : LetterBoxedSolver)
    (ignore_words : List (List Char)) :
    ∀ s ∈ seedStates solver ignore_words, StateConsistent s := by
  intro s hs
  rw [seedStates] at hs
  obtain ⟨w, _, rfl⟩ := List.mem_map.1 hs
  exact ⟨rfl, rfl, rfl⟩

/-- Expansion preserves consistency of the derived fields. -/
theorem expandState_consistent {graph : List (Char × List (List Char))}
    {ignore_words : List (List Char)} {available_chars : Finset Char}
    (s : State) (hs : StateConsistent s) :
    ∀ t ∈ expandState graph ignore_words available_chars s, StateConsistent t := by
  intro t ht
  rw [expandState] at ht
  split at ht
  · cases ht
  · obtain ⟨w, _, rfl⟩ := List.mem_map.1 ht
    refine ⟨?_, ?_, rfl⟩
    · show s.cost + 1 = (s.chain ++ [w]).length
      rw [hs.1, List.length_append]
      rfl
    · show w = (s.chain ++ [w]).getLastD []
      rw [getLastD_append_singleton]

/-! ### The claims -/

/-- Claim C1: every solution chain returned by the search covers the box's
allowed letters exactly — the union of the letters of its words equals
`available_chars`.  (Solutions are recorded only at cached heuristic 0;
the invariant ties the cache to the chain's real heuristic, and dictionary
membership bounds the letters from above.) -/
theorem claim1_solution_covers_allowed_letters
    (string_groups lines ignore_words : List (List Char))
    (solver : LetterBoxedSolver) (sols : List (List (List Char)))
    (chain : List (List Char))
    (hnew : LetterBoxedSolver.new string_groups lines = some solver)
    (hrun : a_star solver ignore_words = some sols)
    (hchain : chain ∈ sols) :
    (chain.flatMap id).toFinset = solver.available_chars := by
  obtain ⟨hdictx, hbucketx⟩ := solver_context hnew
  rw [a_star] at hrun
  have hQ := searchLevels_pres solver.start_letter_dictionary ignore_words
    solver.available_chars (StateInv solver.dictionary solver.available_chars)
    (fun ch => (∀ w ∈ ch, w ∈ solver.dictionary) ∧
      heuristic ch solver.available_chars = 0)
    (fun s hs => expandState_inv hbucketx (fun w hw => (hdictx w hw).1) s hs)
    (fun s hs h0 => ⟨hs.mem_dict, by rw [← hs.heuristic_eq]; exact h0⟩)
    [1, 2, 3, 4, 5, 6] (seedStates solver ignore_words) []
    (seedStates_inv solver ignore_words) (by simp) sols hrun chain hchain
  obtain ⟨hmem, h0⟩ := hQ
  apply Finset.Subset.antisymm
  · intro c hc
    rw [List.mem_toFinset, List.mem_flatMap] at hc
    obtain ⟨w, hw, hcw⟩ := hc
    exact (hdictx w (hmem w hw)).2 c hcw
  · exact heuristic_zero_covers h0

/-- Claim C2: on any word of length at least 2 and any letter box, the word
validator answers `true` exactly when no two adjacent letters of the word
lie in a common letter group (a one-letter remainder being vacuously legal
is the `some true` base case of the recursion; the function is pure by
construction). -/
theorem claim2_validator_iff_no_shared_group
    (letter_groups : List (List Char)) (word : List Char)
    (hw : 2 ≤ word.length) :
    is_letter_pattern_in_letter_box letter_groups word = some true ↔
      word.Chain' (adjOK letter_groups) :=
  ilp_eq_some letter_groups word hw

/-- Claim C3: a raw line is accepted exactly when its length is between 3
and 12, it has no repeated letter when the box's 12 letters are distinct,
all its letters are allowed, and the validator reports legal adjacency; and
accepted words are kept in encounter order (a sub-sequence of the lines). -/
theorem claim3_builder_acceptance :
    (∀ (no_duplicate_letters : Bool) (available_chars : Finset Char)
        (letter_groups : List (List Char)) (word : List Char),
      acceptWord no_duplicate_letters available_chars letter_groups word = true ↔
        specAcceptWord no_duplicate_letters available_chars letter_groups word) ∧
    (∀ (letter_groups lines : List (List Char)),
      (acceptedWords letter_groups lines).Sublist lines) :=
  ⟨acceptWord_iff_spec, fun _ lines => List.filter_sublist lines⟩

/-- Claim C4 (counterexample): the StartIndex is not built from the sorted
Dictionary.  With box `abc/def/ghi/jkl` and word source `adg, adgj`, the
bucket of `'a'` holds the words in encounter order `[adg, adgj]`, while the
descending-length-sorted dictionary orders them `[adgj, adg]`. -/
theorem claim4_counterexample :
    (LetterBoxedSolver.new gsEx linesOrderEx).map
        (fun s => ((lookupBucket s.start_letter_dictionary 'a').getD [],
          s.dictionary.filter (fun w => w.headD '?' == 'a'))) =
      some ([['a', 'd', 'g'], ['a', 'd', 'g', 'j']],
        [['a', 'd', 'g', 'j'], ['a', 'd', 'g']]) ∧
    ([['a', 'd', 'g'], ['a', 'd', 'g', 'j']] : List (List Char)) ≠
      [['a', 'd', 'g', 'j'], ['a', 'd', 'g']] :=
  ⟨by decide, by decide⟩

/-- Claim C4 (amended): the StartIndex is populated during the reading loop,
before the dictionary sort: each bucket holds exactly the accepted words
with that start letter in raw-source encounter order, which can differ from
their relative order in the sorted Dictionary. -/
theorem claim4_buckets_in_encounter_order
    (string_groups lines letter_groups : List (List Char))
    (solver : LetterBoxedSolver)
    (hpg : parseGroups string_groups = some letter_groups)
    (hnew : LetterBoxedSolver.new string_groups lines = some solver)
    (c : Char) :
    (lookupBucket solver.start_letter_dictionary c).getD [] =
      (acceptedWords letter_groups lines).filter (fun w => w.headD '?' == c) := by
  obtain ⟨lg, hp, _, _, hb⟩ := new_dest hnew
  rw [hpg] at hp
  obtain rfl : letter_groups = lg := by injection hp
  rw [hb]
  exact buildBuckets_eq _ c

/-- Claim C5: consecutive words of every returned solution chain are linked
end-to-start: the last letter of each word is the first letter of the next
(expansion only draws from the bucket of the previous word's end letter,
whose words all start with that letter). -/
theorem claim5_solution_chains_linked
    (string_groups lines ignore_words : List (List Char))
    (solver : LetterBoxedSolver) (sols : List (List (List Char)))
    (chain : List (List Char))
    (hnew : LetterBoxedSolver.new string_groups lines = some solver)
    (hrun : a_star solver ignore_words = some sols)
    (hchain : chain ∈ sols) :
    chain.Chain' (fun a b => a.getLast? = b.head?) := by
  obtain ⟨hdictx, hbucketx⟩ := solver_context hnew
  rw [a_star] at hrun
  exact searchLevels_pres solver.start_letter_dictionary ignore_words
    solver.available_chars (StateInv solver.dictionary solver.available_chars)
    (fun ch => ch.Chain' (fun a b => a.getLast? = b.head?))
    (fun s hs => expandState_inv hbucketx (fun w hw => (hdictx w hw).1) s hs)
    (fun s hs _ => hs.linked)
    [1, 2, 3, 4, 5, 6] (seedStates solver ignore_words) []
    (seedStates_inv solver ignore_words) (by simp) sols hrun chain hchain

/-- Claim C6: the stopping policy of one drain at depth ceiling `L`
(started, as in the outer loop, with empty solutions): above ceiling 3 the
drain returns immediately with the single first solution, and a completed
drain found none; at ceiling 3 or below it returns early exactly with
`return_after = 4` solutions, and a completed drain holds at most 3. -/
theorem claim6_stopping_policy (graph : List (Char × List (List Char)))
    (ignore_words : List (List Char)) (available_chars : Finset Char)
    (L : Nat) (q : List State) :
    (3 < L →
      (∀ s', drainLoop graph ignore_words available_chars L q = Sum.inl s' →
        s'.length = 1) ∧
      (∀ s' v', drainLoop graph ignore_words available_chars L q =
        Sum.inr (s', v') → s' = [])) ∧
    (L ≤ 3 →
      (∀ s', drainLoop graph ignore_words available_chars L q = Sum.inl s' →
        s'.length = 4) ∧
      (∀ s' v', drainLoop graph ignore_words available_chars L q =
        Sum.inr (s', v') → s'.length ≤ 3)) := by
  constructor
  · intro hL
    exact drainLoopF_count_high graph ignore_words available_chars hL _ q [] [] rfl
  · intro hL
    exact drainLoopF_count_low graph ignore_words available_chars hL _ q [] []
      (by simp)

/-- Claim C7: the heuristic of a chain against a letter set counts exactly
the letters of the set that occur in no word of the chain (a natural
number, hence non-negative), and it is zero exactly when every letter of
the set occurs somewhere in the chain. -/
theorem claim7_heuristic_counts_missing_letters
    (chain : List (List Char)) (chars : Finset Char) :
    heuristic chain chars =
      (chars.filter (fun c => chain.all (fun w => !(w.contains c)) = true)).card ∧
    (heuristic chain chars = 0 ↔ ∀ c ∈ chars, ∃ w ∈ chain, c ∈ w) :=
  ⟨heuristic_eq_filter_card chain chars, heuristic_eq_zero_iff chain chars⟩

/-- Claim C8: after construction the dictionary is sorted by non-increasing
word length, and the sort is stable: for every length, the words of that
length appear exactly as they did in the accepted (encounter-ordered)
sequence. -/
theorem claim8_dictionary_sorted_stably
    (string_groups lines letter_groups : List (List Char))
    (solver : LetterBoxedSolver)
    (hpg : parseGroups string_groups = some letter_groups)
    (hnew : LetterBoxedSolver.new string_groups lines = some solver) :
    solver.dictionary.Pairwise (fun a b => b.length ≤ a.length) ∧
    ∀ n, solver.dictionary.filter (fun w => w.length == n) =
      (acceptedWords letter_groups lines).filter (fun w => w.length == n) := by
  obtain ⟨lg, hp, _, hd, _⟩ := new_dest hnew
  rw [hpg] at hp
  obtain rfl : letter_groups = lg := by injection hp
  constructor
  · rw [hd]
    exact sortByLenDesc_pairwise _
  · intro n
    rw [hd]
    exact sortByLenDesc_filter _ n

/-- Claim C9: the search operation never fails: for every solver state and
ignore list, the search returns a solutions list (`a_star` is `Some` on
every path), so `run_solver` returns `Ok` and the `No solution found`
branch of `main` is unreachable. -/
theorem claim9_search_never_fails (solver : LetterBoxedSolver)
    (ignore_words : List (List Char)) :
    ∃ sols, run_solver solver ignore_words = some (Except.ok sols) := by
  obtain ⟨r, hr⟩ := searchLevels_isSome solver.start_letter_dictionary
    ignore_words solver.available_chars [1, 2, 3, 4, 5, 6]
    (seedStates solver ignore_words) []
  refine ⟨r, ?_⟩
  rw [run_solver, a_star, hr]
  rfl

/-- Claim C10: every state pushed onto the frontier or the visited heap has
consistent derived fields — the cost is the chain length, `last_word` the
final chain word, `last_char` its last character: the invariant holds at
seeding, is preserved by every expansion step, and therefore holds of every
state the drain accumulates on the visited heap. -/
theorem claim10_pushed_states_consistent :
    (∀ (solver : LetterBoxedSolver) (ignore_words : List (List Char)),
      ∀ s ∈ seedStates solver ignore_words, StateConsistent s) ∧
    (∀ (graph : List (Char × List (List Char)))
        (ignore_words : List (List Char)) (available_chars : Finset Char)
        (s : State), StateConsistent s →
      ∀ t ∈ expandState graph ignore_words available_chars s,
        StateConsistent t) ∧
    (∀ (graph : List (Char × List (List Char)))
        (ignore_words : List (List Char)) (available_chars : Finset Char)
        (L fuel : Nat) (q v : List State) (sols : List (List (List Char)))
        (s' : List (List (List Char))) (v' : List State),
      (∀ x ∈ q, StateConsistent x) → (∀ x ∈ v, StateConsistent x) →
      drainLoopF graph ignore_words available_chars L fuel q v sols =
        Sum.inr (s', v') →
      ∀ x ∈ v', StateConsistent x) := by
  refine ⟨seedStates_consistent, fun _ _ _ => expandState_consistent, ?_⟩
  intro graph ignore_words available_chars L fuel q v sols s' v' hq hv hdr
  exact ((drainLoopF_pres graph ignore_words available_chars L StateConsistent
    (fun _ => True) (fun s hs => expandState_consistent s hs)
    (fun _ _ _ => trivial) fuel q v sols hq hv (fun _ _ => trivial)).2
    s' v' hdr).2

/-! ### Witnesses -/

/-- Witness for C1: the concrete pipeline on `gsEx`/`linesChainEx` returns
the two-word chain, whose letters are exactly the box's 12 letters. -/
theorem claim1_witness :
    LetterBoxedSolver.new gsEx linesChainEx = some exSolver ∧
    (([w1Ex, w2Ex] : List (List Char)).flatMap id).toFinset =
      exSolver.available_chars :=
  ⟨by decide, claim1_solution_covers_allowed_letters gsEx linesChainEx []
    exSolver exSolutions [w1Ex, w2Ex] (by decide) (by decide) (by decide)⟩

/-- Witness for C2: the validator accepts `adg` on the example box, in
agreement with the adjacency condition. -/
theorem claim2_witness :
    2 ≤ (['a', 'd', 'g'] : List Char).length ∧
    (is_letter_pattern_in_letter_box gsEx ['a', 'd', 'g'] = some true ↔
      (['a', 'd', 'g'] : List Char).Chain' (adjOK gsEx)) :=
  ⟨by decide, claim2_validator_iff_no_shared_group gsEx ['a', 'd', 'g']
    (by decide)⟩

/-- Witness for the amended C4: on the concrete solver the `'a'` bucket is
the encounter-ordered filter of the accepted words. -/
theorem claim4_witness :
    LetterBoxedSolver.new gsEx linesOrderEx = some orderSolverEx ∧
    (lookupBucket orderSolverEx.start_letter_dictionary 'a').getD [] =
      (acceptedWords gsEx linesOrderEx).filter (fun w => w.headD '?' == 'a') :=
  ⟨by decide, claim4_buckets_in_encounter_order gsEx linesOrderEx gsEx
    orderSolverEx (by decide) (by decide) 'a'⟩

/-- Witness for C5: the concrete solution chain is end-to-start linked. -/
theorem claim5_witness :
    a_star exSolver [] = some exSolutions ∧
    ([w1Ex, w2Ex] : List (List Char)).Chain' (fun a b => a.getLast? = b.head?) :=
  ⟨by decide, claim5_solution_chains_linked gsEx linesChainEx [] exSolver
    exSolutions [w1Ex, w2Ex] (by decide) (by decide) (by decide)⟩

/-- Witness for C6: a drain at ceiling 4 returns the single goal state's
chain immediately, and a drain at ceiling 2 completes with it alone. -/
theorem claim6_witness :
    (3 < 4 ∧ ([[['a', 'b']]] : List (List (List Char))).length = 1) ∧
    (2 ≤ 3 ∧ ([[['a', 'b']]] : List (List (List Char))).length ≤ 3) :=
  ⟨⟨by decide, ((claim6_stopping_policy [] [] ∅ 4 [goalStateEx]).1
      (by decide)).1 [[['a', 'b']]] (by decide)⟩,
   ⟨by decide, ((claim6_stopping_policy [] [] ∅ 2 [goalStateEx]).2
      (by decide)).2 [[['a', 'b']]] [goalStateEx] (by decide)⟩⟩

/-- Witness for C8: the concrete dictionary is sorted longest-first and its
length-5 sub-sequence matches the accepted order. -/
theorem claim8_witness :
    LetterBoxedSolver.new gsEx linesChainEx = some exSolver ∧
    exSolver.dictionary.Pairwise (fun a b => b.length ≤ a.length) ∧
    exSolver.dictionary.filter (fun w => w.length == 5) =
      (acceptedWords gsEx linesChainEx).filter (fun w => w.length == 5) :=
  ⟨by decide,
   (claim8_dictionary_sorted_stably gsEx linesChainEx gsEx exSolver
     (by decide) (by decide)).1,
   (claim8_dictionary_sorted_stably gsEx linesChainEx gsEx exSolver
     (by decide) (by decide)).2 5⟩

/-- Witness for C10: the concrete seed state, its expansion, and the state
accumulated on the visited heap of a concrete drain are all consistent. -/
theorem claim10_witness :
    StateConsistent seedEx ∧ StateConsistent nextEx ∧
      StateConsistent goalStateEx := by
  refine ⟨claim10_pushed_states_consistent.1 exSolver [] seedEx (by decide),
    ?_, ?_⟩
  · exact claim10_pushed_states_consistent.2.1
      exSolver.start_letter_dictionary [] exSolver.available_chars seedEx
      ⟨rfl, rfl, rfl⟩ nextEx (by decide)
  · refine claim10_pushed_states_consistent.2.2 [] [] ∅ 2 2 [goalStateEx]
      [] [] [[['a', 'b']]] [goalStateEx] ?_ ?_ (by decide) goalStateEx (by decide)
    · intro x hx
      obtain rfl : x = goalStateEx := by simpa using hx
      exact ⟨rfl, rfl, rfl⟩
    · intro x hx
      cases hx
